import Mathlib

/-!
Shallow embedding of `src/timer.py` (classes `Event` and `ProgramTimer`)
from the restaurant_inspections repository.

Modelling decisions:
* Time: `time.time()` is modelled by a `clock : Nat` field of the timer
  state measured in tenths of seconds; every operation that reads the
  clock advances it by one tick afterwards, so instants are strictly
  increasing across operations.  The Python float format
  `"{0:.1f}".format(x)` on a non-negative elapsed value is modelled by
  `fmt1` on the tick count (integer part, dot, one digit).
* The Python dict `self._events : Dict[int, Event]` is modelled by an
  association list `List (Nat × Event)` with Python-dict semantics:
  `dlookup` finds the value stored under a key, `dinsert` overwrites an
  existing binding in place or appends a fresh one, and `len` is the
  list length (bindings are unique by construction).  A Python
  `KeyError` on a missing subscript is modelled by `TimerErr.keyErr`.
* The pandas error frame `self.errors` is modelled as a list of records
  in insertion order; `DataFrame.append(..., ignore_index=True)` is a
  list append.
* `print` side effects are dropped; `print_summary` returns the summary
  string it would print, together with the post-state.  The Python
  methods `start`, `end` and `print_summary` have no `return`
  statement, so each returns `None` to its caller; for `start` the
  returned value is modelled explicitly (the `Option Nat` component,
  always `none`) because the specification claims an id is returned.
-/

namespace RestaurantTimer

/-- Model of class `Event` in `src/timer.py`: name, unique id, hierarchy
depth, optional parent id, start instant and optional end instant. -/
structure Event where
  name : String
  uid : Nat
  hrchy : Nat
  pid : Option Nat
  startT : Nat
  endT : Option Nat
  deriving Repr, DecidableEq

/-- Model of `Event.is_open`: true while no end instant has been set. -/
def Event.is_open (e : Event) : Bool :=
  e.endT.isNone

/-- Model of `Event.seconds` (in clock ticks): elapsed ticks so far for an
open event (given the current instant `now`), total ticks for a closed
event. -/
def Event.seconds (e : Event) (now : Nat) : Nat :=
  match e.endT with
  | none => now - e.startT
  | some en => en - e.startT

/-- Model of one row of the pandas errors frame: columns `Method`,
`DataID`, `ErrDescription`. -/
structure ErrRecord where
  method : String
  dataId : String
  errDescription : String
  deriving Repr, DecidableEq

/-- Failure modes of the embedded operations: the explicit
`Exception` raised by `ProgramTimer.end` when no prior open event
exists, and a Python `KeyError` from subscripting `self._events` with a
missing key. -/
inductive TimerErr where
  | orderingViolation
  | keyErr
  deriving Repr, DecidableEq

/-- Model of class `ProgramTimer`: the `_events` dict, the `errors`
frame, and the current clock instant. -/
structure ProgramTimer where
  events : List (Nat × Event)
  errors : List ErrRecord
  clock : Nat
  deriving Repr, DecidableEq

/-- Python dict subscript read `m[k]`: value stored under key `k`,
`none` when the key is missing. -/
def dlookup (m : List (Nat × Event)) (k : Nat) : Option Event :=
  match m with
  | [] => none
  | (k1, v) :: rest => if k1 = k then some v else dlookup rest k

/-- Python dict subscript write `m[k] = v`: overwrite the binding of an
existing key in place, otherwise append the new binding. -/
def dinsert (m : List (Nat × Event)) (k : Nat) (v : Event) : List (Nat × Event) :=
  match m with
  | [] => [(k, v)]
  | (k1, v1) :: rest => if k1 = k then (k, v) :: rest else (k1, v1) :: dinsert rest k v

/-- Model of the scan loop of `ProgramTimer.__prior_open_event_id`:
`for i in range(i0, 0, -1): if self._events[i].is_open(): return
self._events[i].uid`, returning `none` after the loop. -/
def priorOpenScan (m : List (Nat × Event)) : Nat → Except TimerErr (Option Nat)
  | 0 => .ok none
  | i + 1 =>
    match dlookup m (i + 1) with
    | none => .error .keyErr
    | some e => if e.is_open then .ok (some e.uid) else priorOpenScan m i

/-- Model of `ProgramTimer.__event_count`: `len(self._events)`. -/
def ProgramTimer.event_count (t : ProgramTimer) : Nat :=
  t.events.length

/-- Model of `ProgramTimer.__prior_open_event_id`: uid of the closest
prior still-open event, `none` if there is none. -/
def ProgramTimer.prior_open_event_id (t : ProgramTimer) : Except TimerErr (Option Nat) :=
  if t.event_count = 0 then .ok none
  else priorOpenScan t.events t.event_count

/-- Model of `ProgramTimer.start`: compute `new_id = count + 1`, find the
prior open event, derive `hrchy` and the parent id, insert the new
event, and return `None` (the Python method has no `return` statement;
the `Option Nat` component is that returned value). -/
def ProgramTimer.start (t : ProgramTimer) (name : String) :
    Except TimerErr (ProgramTimer × Option Nat) :=
  let newId := t.event_count + 1
  match t.prior_open_event_id with
  | .error e => .error e
  | .ok none =>
    let ev : Event := ⟨name, newId, 1, none, t.clock, none⟩
    .ok ({ t with events := dinsert t.events newId ev, clock := t.clock + 1 }, none)
  | .ok (some p) =>
    match dlookup t.events p with
    | none => .error .keyErr
    | some pe =>
      let ev : Event := ⟨name, newId, pe.hrchy + 1, some p, t.clock, none⟩
      .ok ({ t with events := dinsert t.events newId ev, clock := t.clock + 1 }, none)

/-- Model of `ProgramTimer.end` (named `endCall` because `end` is a Lean
keyword): find the prior open event; raise the ordering-violation
exception when there is none, otherwise set that event's end instant. -/
def ProgramTimer.endCall (t : ProgramTimer) : Except TimerErr ProgramTimer :=
  match t.prior_open_event_id with
  | .error e => .error e
  | .ok none => .error .orderingViolation
  | .ok (some p) =>
    match dlookup t.events p with
    | none => .error .keyErr
    | some pe =>
      .ok { t with
              events := dinsert t.events p { pe with endT := some t.clock },
              clock := t.clock + 1 }

/-- Model of `ProgramTimer.log_err`: append one row with the three field
values to the errors frame (`DataFrame.append(..., ignore_index=True)`). -/
def ProgramTimer.log_err (t : ProgramTimer) (method : String) (dataId : String)
    (info : String) : ProgramTimer :=
  { t with errors := t.errors ++ [⟨method, dataId, info⟩] }

/-- Model of `ProgramTimer.errors_were_logged`: `not self.errors.empty`. -/
def ProgramTimer.errors_were_logged (t : ProgramTimer) : Bool :=
  !t.errors.isEmpty

/-- Python float format `"{0:.1f}".format(x)` on a non-negative number of
tenths: integer part, a dot, one digit. -/
def fmt1 (ticks : Nat) : String :=
  toString (ticks / 10) ++ "." ++ toString (ticks % 10)

/-- Model of `ProgramTimer.__create_event_summary`: indentation of three
spaces per hierarchy level above one, the event name, `": "`, the
elapsed seconds with one decimal, and `"s"`. -/
def create_event_summary (now : Nat) (e : Event) : String :=
  String.join (List.replicate (e.hrchy - 1) "   ") ++ e.name
    ++ ": " ++ fmt1 (e.seconds now) ++ "s"

/-- Section divider constant `SECTION_DIVIDE` of `print_summary`. -/
def sectionDivide : String := "*************************************"

/-- Model of the rendering loop of `print_summary`:
`for i in range(1, count + 1): summary += create(self._events[i]) + '\n'`,
given here as the concatenation produced after the first `i` iterations. -/
def eventLines (m : List (Nat × Event)) (now : Nat) : Nat → Except TimerErr String
  | 0 => .ok ""
  | i + 1 =>
    match eventLines m now i with
    | .error e => .error e
    | .ok s =>
      match dlookup m (i + 1) with
      | none => .error .keyErr
      | some e => .ok (s ++ create_event_summary now e ++ "\n")

/-- Rendering of `self.errors.to_string(index=False)`, modelling the
pandas output as one header line with the column names followed by one
row per record with the three fields in column order (pandas column
padding is not modelled). -/
def errorsToString (rs : List ErrRecord) : String :=
  "Method DataID ErrDescription"
    ++ String.join (rs.map fun r =>
        "\n" ++ r.method ++ " " ++ r.dataId ++ " " ++ r.errDescription)

/-- Model of `ProgramTimer.print_summary`: build the bordered block with
the header, the per-event lines, the optional `Exceptions` section, then
clear `self._events`; the summary string the Python code prints is
returned together with the post-state. -/
def ProgramTimer.print_summary (t : ProgramTimer) (header : Option String) :
    Except TimerErr (String × ProgramTimer) :=
  let hdr := header.getD "Program Execution Summary"
  match eventLines t.events t.clock t.event_count with
  | .error e => .error e
  | .ok body =>
    let s1 := "\n" ++ sectionDivide ++ "\n" ++ hdr ++ "\n\n" ++ body
    let s2 := if t.errors_were_logged then
        s1 ++ sectionDivide ++ "\n" ++ "Exceptions\n\n" ++ errorsToString t.errors
      else s1
    .ok (s2 ++ "\n" ++ sectionDivide ++ "\n", { t with events := [] })

/-- A fresh `ProgramTimer()`: empty events dict, empty errors frame. -/
def initTimer : ProgramTimer :=
  { events := [], errors := [], clock := 0 }

/-- One external call on the registry: `start(name)`, `end()`,
`print_summary(header)` or `log_err(method, dataId, info)`. -/
inductive Op where
  | opStart (name : String)
  | opEnd
  | opReport (header : Option String)
  | opRecord (method : String) (dataId : String) (info : String)
  deriving Repr, DecidableEq

/-- State transition of one call, discarding returned values. -/
def stepOp (t : ProgramTimer) : Op → Except TimerErr ProgramTimer
  | .opStart name =>
    match t.start name with
    | .error e => .error e
    | .ok (t1, _) => .ok t1
  | .opEnd => t.endCall
  | .opReport h =>
    match t.print_summary h with
    | .error e => .error e
    | .ok (_, t1) => .ok t1
  | .opRecord m d i => .ok (t.log_err m d i)

/-- Run a call sequence from a given state. -/
def runFrom (t : ProgramTimer) : List Op → Except TimerErr ProgramTimer
  | [] => .ok t
  | op :: rest =>
    match stepOp t op with
    | .error e => .error e
    | .ok t1 => runFrom t1 rest

/-- Run a call sequence on a fresh `ProgramTimer`. -/
def runOps (ops : List Op) : Except TimerErr ProgramTimer :=
  runFrom initTimer ops

/-- Keys of the events dict, in binding order. -/
def keysOf (m : List (Nat × Event)) : List Nat :=
  m.map Prod.fst

/-- Bindings of the events dict whose event is still open, in binding
order. -/
def openPairs (m : List (Nat × Event)) : List (Nat × Event) :=
  m.filter fun p => p.2.is_open

/-- Number of still-open events in the dict. -/
def openCount (m : List (Nat × Event)) : Nat :=
  (openPairs m).length

/-- Whether the dict holds an open event under key `q`. -/
def openAt (m : List (Nat × Event)) (q : Nat) : Bool :=
  match dlookup m q with
  | some e => e.is_open
  | none => false

/-- Registry shape invariant: the key list is exactly `1, …, n` in
order (`n` the dict size), and every event is stored under its own
`uid`. -/
def RegInv (m : List (Nat × Event)) : Prop :=
  keysOf m = List.range' 1 m.length ∧ ∀ p ∈ m, p.2.uid = p.1

/-- Hierarchy chain invariant: the open events, in id order, carry
`hrchy` values exactly `1, …, k` where `k` is the number of open
events. -/
def ChainInv (m : List (Nat × Event)) : Prop :=
  (openPairs m).map (fun p => p.2.hrchy) = List.range' 1 (openCount m)

/-- Full reachable-state invariant of the events dict. -/
def Inv (m : List (Nat × Event)) : Prop :=
  RegInv m ∧ ChainInv m

instance (m : List (Nat × Event)) : Decidable (RegInv m) := by
  unfold RegInv; infer_instance

instance (m : List (Nat × Event)) : Decidable (ChainInv m) := by
  unfold ChainInv; infer_instance

instance (m : List (Nat × Event)) : Decidable (Inv m) := by
  unfold Inv; infer_instance

theorem keysOf_append (m1 m2 : List (Nat × Event)) :
    keysOf (m1 ++ m2) = keysOf m1 ++ keysOf m2 := by
  simp [keysOf]

theorem keysOf_length (m : List (Nat × Event)) : (keysOf m).length = m.length := by
  simp [keysOf]

theorem mem_keysOf_of_mem {m : List (Nat × Event)} {x : Nat × Event} (h : x ∈ m) :
    x.1 ∈ keysOf m :=
  List.mem_map_of_mem Prod.fst h

theorem keysOf_cons (k1 : Nat) (v : Event) (rest : List (Nat × Event)) :
    keysOf ((k1, v) :: rest) = k1 :: keysOf rest := rfl

theorem dlookup_cons_self (m : List (Nat × Event)) (k : Nat) (v : Event) :
    dlookup ((k, v) :: m) k = some v := by
  simp [dlookup]

theorem dlookup_cons_ne (m : List (Nat × Event)) (k1 k : Nat) (v : Event)
    (h : k1 ≠ k) : dlookup ((k1, v) :: m) k = dlookup m k := by
  simp [dlookup, h]

theorem dinsert_cons_self (m : List (Nat × Event)) (k : Nat) (e v : Event) :
    dinsert ((k, e) :: m) k v = (k, v) :: m := by
  simp [dinsert]

theorem dinsert_cons_ne (m : List (Nat × Event)) (k1 k : Nat) (v1 v : Event)
    (h : k1 ≠ k) : dinsert ((k1, v1) :: m) k v = (k1, v1) :: dinsert m k v := by
  simp [dinsert, h]

theorem dlookup_eq_none (m : List (Nat × Event)) (k : Nat) (h : k ∉ keysOf m) :
    dlookup m k = none := by
  induction m with
  | nil => rfl
  | cons q rest ih =>
    obtain ⟨k1, v⟩ := q
    rw [keysOf_cons] at h
    have h1 : k1 ≠ k := fun hk => h (hk ▸ List.mem_cons_self k1 (keysOf rest))
    have h2 : k ∉ keysOf rest := fun hk => h (List.mem_cons_of_mem _ hk)
    rw [dlookup_cons_ne _ _ _ _ h1]
    exact ih h2

theorem dlookup_mem {m : List (Nat × Event)} {k : Nat} {e : Event}
    (h : dlookup m k = some e) : (k, e) ∈ m := by
  induction m with
  | nil => simp [dlookup] at h
  | cons q rest ih =>
    obtain ⟨k1, v⟩ := q
    rcases eq_or_ne k1 k with hk | hk
    · subst hk
      rw [dlookup_cons_self] at h
      obtain rfl : v = e := Option.some.inj h
      exact List.mem_cons_self _ _
    · rw [dlookup_cons_ne _ _ _ _ hk] at h
      exact List.mem_cons_of_mem _ (ih h)

theorem mem_dlookup {m : List (Nat × Event)} (hnd : (keysOf m).Nodup)
    {k : Nat} {e : Event} (h : (k, e) ∈ m) : dlookup m k = some e := by
  induction m with
  | nil => simp at h
  | cons q rest ih =>
    obtain ⟨k1, v⟩ := q
    rw [keysOf_cons, List.nodup_cons] at hnd
    rcases List.mem_cons.mp h with heq | hmem
    · obtain ⟨h1, h2⟩ := Prod.mk.injEq k e k1 v ▸ heq
      subst h1; subst h2
      exact dlookup_cons_self rest k e
    · have hne : k1 ≠ k := by
        intro hk; subst hk
        exact hnd.1 (mem_keysOf_of_mem hmem)
      rw [dlookup_cons_ne _ _ _ _ hne]
      exact ih hnd.2 hmem

theorem dlookup_isSome_of_mem_keys (m : List (Nat × Event)) (k : Nat)
    (h : k ∈ keysOf m) : ∃ e, dlookup m k = some e := by
  induction m with
  | nil => simp [keysOf] at h
  | cons q rest ih =>
    obtain ⟨k1, v⟩ := q
    rcases eq_or_ne k1 k with hk | hk
    · subst hk
      exact ⟨v, dlookup_cons_self rest k1 v⟩
    · rw [keysOf_cons] at h
      rcases List.mem_cons.mp h with h | h
      · exact absurd h.symm hk
      · rw [dlookup_cons_ne _ _ _ _ hk]
        exact ih h

theorem dlookup_append (m1 m2 : List (Nat × Event)) (k : Nat)
    (h : k ∉ keysOf m1) : dlookup (m1 ++ m2) k = dlookup m2 k := by
  induction m1 with
  | nil => rfl
  | cons q rest ih =>
    obtain ⟨k1, v⟩ := q
    rw [keysOf_cons] at h
    have h1 : k1 ≠ k := fun hk => h (hk ▸ List.mem_cons_self k1 (keysOf rest))
    have h2 : k ∉ keysOf rest := fun hk => h (List.mem_cons_of_mem _ hk)
    rw [List.cons_append, dlookup_cons_ne _ _ _ _ h1]
    exact ih h2

theorem dlookup_snoc (m : List (Nat × Event)) (k : Nat) (v : Event)
    (h : k ∉ keysOf m) : dlookup (m ++ [(k, v)]) k = some v := by
  rw [dlookup_append m _ k h, dlookup_cons_self]

theorem dinsert_of_not_mem (m : List (Nat × Event)) (k : Nat) (v : Event)
    (h : k ∉ keysOf m) : dinsert m k v = m ++ [(k, v)] := by
  induction m with
  | nil => rfl
  | cons q rest ih =>
    obtain ⟨k1, v1⟩ := q
    rw [keysOf_cons] at h
    have h1 : k1 ≠ k := fun hk => h (hk ▸ List.mem_cons_self k1 (keysOf rest))
    have h2 : k ∉ keysOf rest := fun hk => h (List.mem_cons_of_mem _ hk)
    rw [dinsert_cons_ne _ _ _ _ _ h1, List.cons_append, ih h2]

theorem dinsert_append (m1 m2 : List (Nat × Event)) (k : Nat) (v : Event)
    (h : k ∉ keysOf m1) : dinsert (m1 ++ m2) k v = m1 ++ dinsert m2 k v := by
  induction m1 with
  | nil => rfl
  | cons q rest ih =>
    obtain ⟨k1, v1⟩ := q
    rw [keysOf_cons] at h
    have h1 : k1 ≠ k := fun hk => h (hk ▸ List.mem_cons_self k1 (keysOf rest))
    have h2 : k ∉ keysOf rest := fun hk => h (List.mem_cons_of_mem _ hk)
    rw [List.cons_append, dinsert_cons_ne _ _ _ _ _ h1, ih h2, List.cons_append]

theorem keysOf_nodup (m : List (Nat × Event))
    (hk : keysOf m = List.range' 1 m.length) : (keysOf m).Nodup := by
  rw [hk]; exact List.nodup_range' 1 m.length

theorem keys_range_decomp (m : List (Nat × Event)) :
    ∀ a p : Nat, keysOf m = List.range' a m.length → a ≤ p → p < a + m.length →
      ∃ m1 e m2, m = m1 ++ (p, e) :: m2 ∧ m1.length = p - a ∧
        keysOf m1 = List.range' a (p - a) ∧
        keysOf m2 = List.range' (p + 1) (a + m.length - (p + 1)) := by
  induction m with
  | nil => intro a p _ h1 h2; simp at h2; omega
  | cons q rest ih =>
    intro a p hk h1 h2
    obtain ⟨k1, v⟩ := q
    rw [keysOf_cons, List.length_cons, List.range'_succ] at hk
    obtain ⟨hk1, hkrest⟩ := List.cons.inj hk
    subst hk1
    rcases eq_or_ne p k1 with rfl | hne
    · refine ⟨[], v, rest, rfl, by simp, by simp [keysOf], ?_⟩
      rw [hkrest]
      congr 1
      simp only [List.length_cons]
      omega
    · have hlt : k1 + 1 ≤ p := by omega
      obtain ⟨m1, e, m2, hm, hlen, hk1m, hk2m⟩ :=
        ih (k1 + 1) p hkrest hlt (by simp at h2 ⊢; omega)
      refine ⟨(k1, v) :: m1, e, m2, by rw [List.cons_append, hm], ?_, ?_, ?_⟩
      · simp only [List.length_cons, hlen]; omega
      · rw [keysOf_cons, hk1m]
        have hpa : p - k1 = (p - (k1 + 1)) + 1 := by omega
        rw [hpa, List.range'_succ]
      · rw [hk2m]
        congr 1
        simp only [List.length_cons]
        omega

theorem openAt_false_of_gt (m : List (Nat × Event))
    (hk : keysOf m = List.range' 1 m.length) (q : Nat) (hq : m.length < q) :
    openAt m q = false := by
  have hnm : q ∉ keysOf m := by
    rw [hk]; intro hmem; rw [List.mem_range'_1] at hmem; omega
  simp [openAt, dlookup_eq_none m q hnm]

theorem openAt_zero (m : List (Nat × Event))
    (hk : keysOf m = List.range' 1 m.length) : openAt m 0 = false := by
  have hnm : (0 : Nat) ∉ keysOf m := by
    rw [hk]; intro hmem; rw [List.mem_range'_1] at hmem; omega
  simp [openAt, dlookup_eq_none m 0 hnm]

theorem priorOpenScan_spec (m : List (Nat × Event))
    (hk : keysOf m = List.range' 1 m.length) (hu : ∀ p ∈ m, p.2.uid = p.1) :
    ∀ i, i ≤ m.length →
      (priorOpenScan m i = .ok none ∧ ∀ q, q ≤ i → openAt m q = false) ∨
      (∃ p e, priorOpenScan m i = .ok (some p) ∧ 1 ≤ p ∧ p ≤ i ∧
        dlookup m p = some e ∧ e.is_open = true ∧
        ∀ q, p < q → q ≤ i → openAt m q = false) := by
  intro i
  induction i with
  | zero =>
    intro _
    left
    refine ⟨rfl, ?_⟩
    intro q hq
    interval_cases q
    exact openAt_zero m hk
  | succ i ih =>
    intro hle
    have hmem : (i + 1) ∈ keysOf m := by
      rw [hk, List.mem_range'_1]; omega
    obtain ⟨e, he⟩ := dlookup_isSome_of_mem_keys m (i + 1) hmem
    have huid : e.uid = i + 1 := hu (i + 1, e) (dlookup_mem he)
    have hopen : openAt m (i + 1) = e.is_open := by simp [openAt, he]
    have hrfl : priorOpenScan m (i + 1) =
        match dlookup m (i + 1) with
        | none => .error .keyErr
        | some e => if e.is_open then .ok (some e.uid) else priorOpenScan m i := rfl
    cases hoe : e.is_open with
    | true =>
      right
      refine ⟨i + 1, e, ?_, by omega, le_rfl, he, hoe, ?_⟩
      · rw [hrfl, he]
        simp [hoe, huid]
      · intro q h1 h2; omega
    | false =>
      have hstep : priorOpenScan m (i + 1) = priorOpenScan m i := by
        rw [hrfl, he]
        simp [hoe]
      rcases ih (by omega) with ⟨h1, h2⟩ | ⟨p, e1, h1, hp1, hp2, h4, h5, h6⟩
      · left
        refine ⟨by rw [hstep]; exact h1, ?_⟩
        intro q hq
        by_cases hqi : q ≤ i
        · exact h2 q hqi
        · have hq1 : q = i + 1 := by omega
          rw [hq1, hopen, hoe]
      · right
        refine ⟨p, e1, by rw [hstep]; exact h1, hp1, by omega, h4, h5, ?_⟩
        intro q hq1 hq2
        by_cases hqi : q ≤ i
        · exact h6 q hq1 hqi
        · have hq3 : q = i + 1 := by omega
          rw [hq3, hopen, hoe]

theorem prior_open_spec (t : ProgramTimer) (h : RegInv t.events) :
    (t.prior_open_event_id = .ok none ∧ ∀ q, openAt t.events q = false) ∨
    (∃ p e, t.prior_open_event_id = .ok (some p) ∧ 1 ≤ p ∧ p ≤ t.events.length ∧
      dlookup t.events p = some e ∧ e.is_open = true ∧
      ∀ q, p < q → openAt t.events q = false) := by
  obtain ⟨hk, hu⟩ := h
  rcases Nat.eq_zero_or_pos t.events.length with hz | hpos
  · left
    have hm : t.events = [] := List.length_eq_zero.mp hz
    constructor
    · unfold ProgramTimer.prior_open_event_id ProgramTimer.event_count
      rw [if_pos hz]
    · intro q
      rw [hm]
      simp [openAt, dlookup]
  · have hspec := priorOpenScan_spec t.events hk hu t.events.length le_rfl
    have hup : t.prior_open_event_id = priorOpenScan t.events t.events.length := by
      unfold ProgramTimer.prior_open_event_id ProgramTimer.event_count
      rw [if_neg (by omega)]
    rcases hspec with ⟨h1, h2⟩ | ⟨p, e, h1, hp1, hp2, h4, h5, h6⟩
    · left
      refine ⟨by rw [hup]; exact h1, ?_⟩
      intro q
      by_cases hq : q ≤ t.events.length
      · exact h2 q hq
      · exact openAt_false_of_gt t.events hk q (by omega)
    · right
      refine ⟨p, e, by rw [hup]; exact h1, hp1, hp2, h4, h5, ?_⟩
      intro q hq
      by_cases hql : q ≤ t.events.length
      · exact h6 q hq hql
      · exact openAt_false_of_gt t.events hk q (by omega)

theorem openPairs_all_closed (m : List (Nat × Event))
    (h : ∀ p ∈ m, p.2.is_open = false) : openPairs m = [] := by
  rw [openPairs, List.filter_eq_nil_iff]
  intro p hp
  simp [h p hp]

theorem all_closed_of_openAt (m : List (Nat × Event))
    (hk : keysOf m = List.range' 1 m.length)
    (h : ∀ q, openAt m q = false) : ∀ p ∈ m, p.2.is_open = false := by
  intro p hp
  have hnd := keysOf_nodup m hk
  have hl : dlookup m p.1 = some p.2 := mem_dlookup hnd (by rwa [Prod.mk.eta])
  simpa [openAt, hl] using h p.1

theorem openCount_zero_of_openAt (m : List (Nat × Event))
    (hk : keysOf m = List.range' 1 m.length)
    (h : ∀ q, openAt m q = false) : openCount m = 0 := by
  simp [openCount, openPairs_all_closed m (all_closed_of_openAt m hk h)]

theorem openCount_pos_of_open (m : List (Nat × Event)) (p : Nat) (e : Event)
    (hl : dlookup m p = some e) (ho : e.is_open = true) : 0 < openCount m := by
  have hp : (p, e) ∈ m := dlookup_mem hl
  have hmem : (p, e) ∈ openPairs m := List.mem_filter.mpr ⟨hp, by simp [ho]⟩
  exact List.length_pos.mpr (List.ne_nil_of_mem hmem)

theorem closed_tail (m m1 m2 : List (Nat × Event)) (p : Nat) (e : Event)
    (hk : keysOf m = List.range' 1 m.length)
    (hm : m = m1 ++ (p, e) :: m2)
    (hk2 : ∀ x ∈ m2, p < x.1)
    (hmax : ∀ q, p < q → openAt m q = false) :
    ∀ x ∈ m2, x.2.is_open = false := by
  intro x hx
  have hnd := keysOf_nodup m hk
  have hxm : x ∈ m := by
    rw [hm]; exact List.mem_append_right _ (List.mem_cons_of_mem _ hx)
  have hl : dlookup m x.1 = some x.2 := mem_dlookup hnd (by rwa [Prod.mk.eta])
  simpa [openAt, hl] using hmax x.1 (hk2 x hx)

theorem openPairs_append (m1 m2 : List (Nat × Event)) :
    openPairs (m1 ++ m2) = openPairs m1 ++ openPairs m2 := by
  simp [openPairs, List.filter_append]

theorem openPairs_middle (m1 m2 : List (Nat × Event)) (p : Nat) (e : Event)
    (ho : e.is_open = true) (hc : ∀ x ∈ m2, x.2.is_open = false) :
    openPairs (m1 ++ (p, e) :: m2) = openPairs m1 ++ [(p, e)] := by
  rw [openPairs_append]
  congr 1
  have h2 : openPairs m2 = [] := openPairs_all_closed m2 hc
  calc openPairs ((p, e) :: m2) = (p, e) :: openPairs m2 := by
        simp [openPairs, List.filter_cons, ho]
    _ = [(p, e)] := by rw [h2]

theorem chain_last (m : List (Nat × Event)) (hc : ChainInv m)
    (m1 m2 : List (Nat × Event)) (p : Nat) (e : Event)
    (hm : m = m1 ++ (p, e) :: m2) (ho : e.is_open = true)
    (hcl : ∀ x ∈ m2, x.2.is_open = false) :
    e.hrchy = openCount m ∧
    (openPairs m1).map (fun x => x.2.hrchy) = List.range' 1 (openCount m - 1) ∧
    openCount m = openCount m1 + 1 := by
  have hop : openPairs m = openPairs m1 ++ [(p, e)] := by
    rw [hm]; exact openPairs_middle m1 m2 p e ho hcl
  have hcount : openCount m = openCount m1 + 1 := by
    simp [openCount, hop]
  rw [ChainInv, hop, hcount, List.map_append, List.range'_1_concat] at hc
  obtain ⟨hA, hB⟩ := List.append_inj hc (by simp [openCount])
  have hhr : e.hrchy = 1 + openCount m1 := by
    simpa using congrArg (fun l => l.headI) hB
  refine ⟨by omega, ?_, hcount⟩
  rw [hA]
  congr 1
  omega

theorem start_spec (t : ProgramTimer) (name : String) (h : Inv t.events) :
    ∃ ev : Event,
      t.start name = .ok ({ t with
          events := t.events ++ [(t.events.length + 1, ev)],
          clock := t.clock + 1 }, none) ∧
      ev.name = name ∧ ev.uid = t.events.length + 1 ∧
      ev.hrchy = openCount t.events + 1 ∧
      ev.startT = t.clock ∧ ev.endT = none := by
  obtain ⟨hreg, hchain⟩ := h
  have hnotin : t.events.length + 1 ∉ keysOf t.events := by
    rw [hreg.1]; intro hmem; rw [List.mem_range'_1] at hmem; omega
  rcases prior_open_spec t hreg with ⟨h1, h2⟩ | ⟨p, e, h1, hp1, hp2, h4, h5, h6⟩
  · have hz : openCount t.events = 0 := openCount_zero_of_openAt _ hreg.1 h2
    refine ⟨⟨name, t.events.length + 1, 1, none, t.clock, none⟩, ?_, rfl, rfl,
      by rw [hz], rfl, rfl⟩
    have hstart : t.start name = .ok ({ t with
        events := dinsert t.events (t.events.length + 1)
          ⟨name, t.events.length + 1, 1, none, t.clock, none⟩,
        clock := t.clock + 1 }, none) := by
      simp only [ProgramTimer.start, ProgramTimer.event_count, h1]
    rw [hstart, dinsert_of_not_mem _ _ _ hnotin]
  · obtain ⟨m1, e1, m2, hm, hlen1, hk1, hk2⟩ :=
      keys_range_decomp t.events 1 p hreg.1 hp1 (by omega)
    have hnd := keysOf_nodup t.events hreg.1
    have he1 : dlookup t.events p = some e1 := by
      refine mem_dlookup hnd ?_
      rw [hm]; exact List.mem_append_right _ (List.mem_cons_self _ _)
    obtain rfl : e1 = e := Option.some.inj (he1.symm.trans h4)
    have hk2' : ∀ x ∈ m2, p < x.1 := by
      intro x hx
      have hxk : x.1 ∈ keysOf m2 := mem_keysOf_of_mem hx
      rw [hk2, List.mem_range'_1] at hxk
      omega
    have hcl := closed_tail t.events m1 m2 p e1 hreg.1 hm hk2' h6
    obtain ⟨hhr, -, -⟩ := chain_last t.events hchain m1 m2 p e1 hm h5 hcl
    refine ⟨⟨name, t.events.length + 1, e1.hrchy + 1, some p, t.clock, none⟩, ?_, rfl, rfl,
      by rw [hhr], rfl, rfl⟩
    have hstart : t.start name = .ok ({ t with
        events := dinsert t.events (t.events.length + 1)
          ⟨name, t.events.length + 1, e1.hrchy + 1, some p, t.clock, none⟩,
        clock := t.clock + 1 }, none) := by
      simp only [ProgramTimer.start, ProgramTimer.event_count, h1, h4]
    rw [hstart, dinsert_of_not_mem _ _ _ hnotin]

theorem Inv_snoc (m : List (Nat × Event)) (h : Inv m) (ev : Event)
    (hu : ev.uid = m.length + 1) (ho : ev.is_open = true)
    (hh : ev.hrchy = openCount m + 1) :
    Inv (m ++ [(m.length + 1, ev)]) ∧
    openCount (m ++ [(m.length + 1, ev)]) = openCount m + 1 := by
  obtain ⟨⟨hk, huid⟩, hchain⟩ := h
  have hone : openPairs [(m.length + 1, ev)] = [(m.length + 1, ev)] := by
    simp [openPairs, List.filter_cons, ho]
  have hop : openPairs (m ++ [(m.length + 1, ev)]) = openPairs m ++ [(m.length + 1, ev)] := by
    rw [openPairs_append, hone]
  have hcnt : openCount (m ++ [(m.length + 1, ev)]) = openCount m + 1 := by
    simp [openCount, hop]
  refine ⟨⟨⟨?_, ?_⟩, ?_⟩, hcnt⟩
  · rw [keysOf_append, hk]
    have hsing : keysOf [(m.length + 1, ev)] = [m.length + 1] := rfl
    rw [hsing, List.length_append, List.length_singleton, List.range'_1_concat]
    congr 1
    simp
    omega
  · intro x hx
    rcases List.mem_append.mp hx with hx | hx
    · exact huid x hx
    · rw [List.mem_singleton.mp hx, hu]
  · rw [ChainInv, hop, hcnt, List.map_append, List.range'_1_concat]
    rw [ChainInv] at hchain
    rw [hchain]
    congr 1
    simp [hh]
    omega

theorem end_spec (t : ProgramTimer) (h : Inv t.events) (hne : 0 < openCount t.events) :
    ∃ p e m1 m2,
      t.events = m1 ++ (p, e) :: m2 ∧ e.is_open = true ∧ 1 ≤ p ∧ p ≤ t.events.length ∧
      dlookup t.events p = some e ∧
      (∀ q, p < q → openAt t.events q = false) ∧
      (∀ x ∈ m2, x.2.is_open = false) ∧
      t.endCall = .ok { t with
        events := m1 ++ (p, { e with endT := some t.clock }) :: m2,
        clock := t.clock + 1 } := by
  obtain ⟨hreg, hchain⟩ := h
  rcases prior_open_spec t hreg with ⟨h1, h2⟩ | ⟨p, e, h1, hp1, hp2, h4, h5, h6⟩
  · exact absurd (openCount_zero_of_openAt _ hreg.1 h2) (by omega)
  · obtain ⟨m1, e1, m2, hm, hlen1, hk1, hk2⟩ :=
      keys_range_decomp t.events 1 p hreg.1 hp1 (by omega)
    have hnd := keysOf_nodup t.events hreg.1
    have he1 : dlookup t.events p = some e1 := by
      refine mem_dlookup hnd ?_
      rw [hm]; exact List.mem_append_right _ (List.mem_cons_self _ _)
    obtain rfl : e1 = e := Option.some.inj (he1.symm.trans h4)
    have hk2' : ∀ x ∈ m2, p < x.1 := by
      intro x hx
      have hxk : x.1 ∈ keysOf m2 := mem_keysOf_of_mem hx
      rw [hk2, List.mem_range'_1] at hxk
      omega
    have hcl := closed_tail t.events m1 m2 p e1 hreg.1 hm hk2' h6
    refine ⟨p, e1, m1, m2, hm, h5, hp1, hp2, h4, h6, hcl, ?_⟩
    have hnm1 : p ∉ keysOf m1 := by
      rw [hk1]; intro hx; rw [List.mem_range'_1] at hx; omega
    have hend : t.endCall = .ok { t with
        events := dinsert t.events p { e1 with endT := some t.clock },
        clock := t.clock + 1 } := by
      simp only [ProgramTimer.endCall, h1, h4]
    rw [hend]
    congr 2
    rw [hm, dinsert_append _ _ _ _ hnm1, dinsert_cons_self]

theorem end_err (t : ProgramTimer) (h : Inv t.events) (hz : openCount t.events = 0) :
    t.endCall = .error .orderingViolation := by
  rcases prior_open_spec t h.1 with ⟨h1, h2⟩ | ⟨p, e, h1, hp1, hp2, h4, h5, h6⟩
  · simp only [ProgramTimer.endCall, h1]
  · exact absurd (openCount_pos_of_open t.events p e h4 h5) (by omega)

theorem end_err_iff (t : ProgramTimer) (h : Inv t.events) :
    t.endCall = .error .orderingViolation ↔ openCount t.events = 0 := by
  constructor
  · intro he
    by_contra hz
    obtain ⟨p, e, m1, m2, -, -, -, -, -, -, -, hok⟩ :=
      end_spec t h (Nat.pos_of_ne_zero hz)
    rw [hok] at he
    exact Except.noConfusion he
  · exact end_err t h

theorem Inv_close (m1 m2 : List (Nat × Event)) (p : Nat) (e : Event) (c : Nat)
    (h : Inv (m1 ++ (p, e) :: m2)) (ho : e.is_open = true)
    (hcl : ∀ x ∈ m2, x.2.is_open = false) :
    Inv (m1 ++ (p, { e with endT := some c }) :: m2) ∧
    openCount (m1 ++ (p, { e with endT := some c }) :: m2) =
      openCount (m1 ++ (p, e) :: m2) - 1 ∧
    (m1 ++ (p, { e with endT := some c }) :: m2).length = (m1 ++ (p, e) :: m2).length := by
  obtain ⟨⟨hk, huid⟩, hchain⟩ := h
  obtain ⟨hhr, hm1chain, hcount⟩ := chain_last _ hchain m1 m2 p e rfl ho hcl
  have hopNew : openPairs (m1 ++ (p, { e with endT := some c }) :: m2) = openPairs m1 := by
    rw [openPairs_append]
    have hnil : openPairs ((p, { e with endT := some c }) :: m2) = [] := by
      refine openPairs_all_closed _ ?_
      intro x hx
      rcases List.mem_cons.mp hx with rfl | hx
      · simp [Event.is_open]
      · exact hcl x hx
    rw [hnil, List.append_nil]
  have hkeys : keysOf (m1 ++ (p, { e with endT := some c }) :: m2) =
      keysOf (m1 ++ (p, e) :: m2) := by
    rw [keysOf_append, keysOf_append, keysOf_cons, keysOf_cons]
  have hlen : (m1 ++ (p, { e with endT := some c }) :: m2).length =
      (m1 ++ (p, e) :: m2).length := by simp
  have hcntNew : openCount (m1 ++ (p, { e with endT := some c }) :: m2) =
      openCount (m1 ++ (p, e) :: m2) - 1 := by
    rw [openCount, hopNew, hcount]
    simp [openCount]
  refine ⟨⟨⟨?_, ?_⟩, ?_⟩, hcntNew, hlen⟩
  · rw [hkeys, hk, hlen]
  · intro x hx
    rcases List.mem_append.mp hx with hx | hx
    · exact huid x (List.mem_append_left _ hx)
    · rcases List.mem_cons.mp hx with rfl | hx
      · have hpe : e.uid = p :=
          huid (p, e) (List.mem_append_right _ (List.mem_cons_self _ _))
        simpa using hpe
      · exact huid x (List.mem_append_right _ (List.mem_cons_of_mem _ hx))
  · rw [ChainInv, hopNew, hcntNew, hcount]
    rw [hcount] at hm1chain
    simpa using hm1chain

theorem join_concat (l : List String) (s : String) :
    String.join (l ++ [s]) = String.join l ++ s := by
  simp [String.join, List.foldl_append]

theorem eventLines_ok (m : List (Nat × Event)) (now : Nat)
    (hk : keysOf m = List.range' 1 m.length) :
    ∀ i, i ≤ m.length →
      eventLines m now i =
        .ok (String.join ((m.take i).map fun p => create_event_summary now p.2 ++ "\n")) := by
  intro i
  induction i with
  | zero => intro _; rfl
  | succ i ih =>
    intro hle
    obtain ⟨m1, e, m2, hm, hlen1, hk1, hk2⟩ :=
      keys_range_decomp m 1 (i + 1) hk (by omega) (by omega)
    have hnm1 : (i + 1) ∉ keysOf m1 := by
      rw [hk1]; intro hx; rw [List.mem_range'_1] at hx; omega
    have hl : dlookup m (i + 1) = some e := by
      rw [hm, dlookup_append _ _ _ hnm1, dlookup_cons_self]
    have hrfl : eventLines m now (i + 1) =
        match eventLines m now i with
        | .error er => .error er
        | .ok s =>
          match dlookup m (i + 1) with
          | none => .error .keyErr
          | some e1 => .ok (s ++ create_event_summary now e1 ++ "\n") := rfl
    have htake1 : m.take (i + 1) = m1 ++ [(i + 1, e)] := by
      rw [hm, List.take_append_eq_append_take, List.take_of_length_le (by omega)]
      have h10 : i + 1 - m1.length = 1 := by omega
      rw [h10]
      rfl
    have htake0 : m.take i = m1 := by
      rw [hm, List.take_append_eq_append_take, List.take_of_length_le (by omega)]
      have h00 : i - m1.length = 0 := by omega
      rw [h00]
      simp
    rw [hrfl]
    simp only [ih (by omega), hl]
    rw [htake0, htake1, List.map_append]
    simp [join_concat, String.append_assoc]

theorem print_summary_spec (t : ProgramTimer) (header : Option String)
    (hk : keysOf t.events = List.range' 1 t.events.length) :
    t.print_summary header = .ok
      ((if t.errors_were_logged then
          "\n" ++ sectionDivide ++ "\n" ++ header.getD "Program Execution Summary" ++ "\n\n"
            ++ String.join (t.events.map fun p => create_event_summary t.clock p.2 ++ "\n")
            ++ sectionDivide ++ "\n" ++ "Exceptions\n\n" ++ errorsToString t.errors
        else
          "\n" ++ sectionDivide ++ "\n" ++ header.getD "Program Execution Summary" ++ "\n\n"
            ++ String.join (t.events.map fun p => create_event_summary t.clock p.2 ++ "\n"))
        ++ "\n" ++ sectionDivide ++ "\n",
      { t with events := [] }) := by
  have hev := eventLines_ok t.events t.clock hk t.events.length le_rfl
  rw [List.take_length] at hev
  simp only [ProgramTimer.print_summary, ProgramTimer.event_count, hev]

theorem Inv_nil : Inv ([] : List (Nat × Event)) := by
  decide

theorem stepOp_inv (t : ProgramTimer) (op : Op) (h : Inv t.events) :
    stepOp t op ≠ .error .keyErr ∧ ∀ t1, stepOp t op = .ok t1 → Inv t1.events := by
  cases op with
  | opStart name =>
    obtain ⟨ev, hok, hn, hu, hh, hs, he⟩ := start_spec t name h
    have ho : ev.is_open = true := by simp [Event.is_open, he]
    obtain ⟨hInv, -⟩ := Inv_snoc t.events h ev hu ho hh
    have hstep : stepOp t (Op.opStart name) = .ok { t with
        events := t.events ++ [(t.events.length + 1, ev)], clock := t.clock + 1 } := by
      simp [stepOp, hok]
    constructor
    · rw [hstep]; intro hc; exact Except.noConfusion hc
    · intro t1 ht1
      rw [hstep] at ht1
      obtain rfl := Except.ok.inj ht1
      exact hInv
  | opEnd =>
    rcases Nat.eq_zero_or_pos (openCount t.events) with hz | hpos
    · have herr := end_err t h hz
      have hstep : stepOp t Op.opEnd = .error .orderingViolation := herr
      constructor
      · rw [hstep]
        intro hc
        exact TimerErr.noConfusion (Except.error.inj hc)
      · intro t1 ht1
        rw [hstep] at ht1
        exact Except.noConfusion ht1
    · obtain ⟨p, e, m1, m2, hm, ho, hp1, hp2, hl, hmax, hcl, hok⟩ := end_spec t h hpos
      have hInv := (Inv_close m1 m2 p e t.clock (hm ▸ h) ho hcl).1
      have hstep : stepOp t Op.opEnd = .ok { t with
          events := m1 ++ (p, { e with endT := some t.clock }) :: m2,
          clock := t.clock + 1 } := hok
      constructor
      · rw [hstep]; intro hc; exact Except.noConfusion hc
      · intro t1 ht1
        rw [hstep] at ht1
        obtain rfl := Except.ok.inj ht1
        exact hInv
  | opReport hd =>
    have hps := print_summary_spec t hd h.1.1
    have hstep : stepOp t (Op.opReport hd) = .ok { t with events := [] } := by
      simp [stepOp, hps]
    constructor
    · rw [hstep]; intro hc; exact Except.noConfusion hc
    · intro t1 ht1
      rw [hstep] at ht1
      obtain rfl := Except.ok.inj ht1
      exact Inv_nil
  | opRecord a b c =>
    constructor
    · intro hc; exact Except.noConfusion hc
    · intro t1 ht1
      obtain rfl := Except.ok.inj ht1
      exact h

theorem runFrom_inv (ops : List Op) : ∀ t, Inv t.events →
    runFrom t ops ≠ .error .keyErr ∧
    ∀ t1, runFrom t ops = .ok t1 → Inv t1.events := by
  induction ops with
  | nil =>
    intro t h
    constructor
    · intro hc; exact Except.noConfusion hc
    · intro t1 ht1
      obtain rfl := Except.ok.inj ht1
      exact h
  | cons op rest ih =>
    intro t h
    obtain ⟨hne, hpres⟩ := stepOp_inv t op h
    cases hstep : stepOp t op with
    | error e =>
      have hrun : runFrom t (op :: rest) = .error e := by
        simp [runFrom, hstep]
      constructor
      · rw [hrun]
        intro hc
        obtain rfl := Except.error.inj hc
        exact hne hstep
      · intro t1 ht1
        rw [hrun] at ht1
        exact Except.noConfusion ht1
    | ok t2 =>
      have hrun : runFrom t (op :: rest) = runFrom t2 rest := by
        simp [runFrom, hstep]
      rw [hrun]
      exact ih t2 (hpres t2 hstep)

theorem runOps_inv (ops : List Op) :
    runOps ops ≠ .error .keyErr ∧ ∀ t, runOps ops = .ok t → Inv t.events :=
  runFrom_inv ops initTimer Inv_nil

/-- Number of `start` calls in a call sequence. -/
def countS : List Op → Nat
  | [] => 0
  | Op.opStart _ :: rest => countS rest + 1
  | _ :: rest => countS rest

/-- Number of `end` calls in a call sequence. -/
def countE : List Op → Nat
  | [] => 0
  | Op.opEnd :: rest => countE rest + 1
  | _ :: rest => countE rest

/-- The call sequence consists of `start` and `end` calls only. -/
def startEndOnly (ops : List Op) : Prop :=
  ∀ op ∈ ops, (∃ s, op = Op.opStart s) ∨ op = Op.opEnd

/-- Well-nestedness of a `start`/`end` call sequence: every leading
segment has at least as many `start` calls as `end` calls, so each
`end` is matched (LIFO) to an earlier unmatched `start`. -/
def wellNested (ops : List Op) : Prop :=
  ∀ l1 l2, ops = l1 ++ l2 → countE l1 ≤ countS l1

theorem countS_append (l1 l2 : List Op) :
    countS (l1 ++ l2) = countS l1 + countS l2 := by
  induction l1 with
  | nil => simp [countS]
  | cons op rest ih =>
    cases op with
    | opStart s => simp [countS, ih]; omega
    | opEnd => simp [countS, ih]
    | opReport hd => simp [countS, ih]
    | opRecord a b c => simp [countS, ih]

theorem countE_append (l1 l2 : List Op) :
    countE (l1 ++ l2) = countE l1 + countE l2 := by
  induction l1 with
  | nil => simp [countE]
  | cons op rest ih =>
    cases op with
    | opStart s => simp [countE, ih]
    | opEnd => simp [countE, ih]; omega
    | opReport hd => simp [countE, ih]
    | opRecord a b c => simp [countE, ih]

theorem runFrom_append (t : ProgramTimer) (l1 l2 : List Op) :
    runFrom t (l1 ++ l2) =
      match runFrom t l1 with
      | .error e => .error e
      | .ok t1 => runFrom t1 l2 := by
  induction l1 generalizing t with
  | nil => rfl
  | cons op rest ih =>
    cases hstep : stepOp t op with
    | error e => simp [runFrom, hstep]
    | ok t2 => simp [runFrom, hstep, ih]

theorem trace_state (ops : List Op) (hse : startEndOnly ops) (hwn : wellNested ops) :
    ∃ t, runOps ops = .ok t ∧ Inv t.events ∧
      t.events.length = countS ops ∧
      openCount t.events = countS ops - countE ops := by
  induction ops using List.reverseRecOn with
  | nil =>
    exact ⟨initTimer, rfl, Inv_nil, rfl, rfl⟩
  | append_singleton l op ih =>
    have hse' : startEndOnly l := fun o ho => hse o (List.mem_append_left _ ho)
    have hwn' : wellNested l := by
      intro l1 l2 hl
      exact hwn l1 (l2 ++ [op]) (by rw [hl, List.append_assoc])
    obtain ⟨t, hrun, hInv, hlen, hopen⟩ := ih hse' hwn'
    have hle : countE l ≤ countS l := hwn l [op] rfl
    have hrunapp : runOps (l ++ [op]) = runFrom t [op] := by
      simp only [runOps, runFrom_append]
      rw [show runFrom initTimer l = runOps l from rfl, hrun]
    rcases hse op (List.mem_append_right _ (List.mem_singleton_self _)) with ⟨s, rfl⟩ | rfl
    · obtain ⟨ev, hok, hn, hu, hh, hs, he⟩ := start_spec t s hInv
      have ho : ev.is_open = true := by simp [Event.is_open, he]
      obtain ⟨hInv1, hcnt1⟩ := Inv_snoc t.events hInv ev hu ho hh
      refine ⟨{ t with
          events := t.events ++ [(t.events.length + 1, ev)],
          clock := t.clock + 1 }, ?_, hInv1, ?_, ?_⟩
      · rw [hrunapp]
        simp [runFrom, stepOp, hok]
      · show (t.events ++ [(t.events.length + 1, ev)]).length = countS (l ++ [Op.opStart s])
        rw [List.length_append, countS_append, hlen]
        simp [countS]
      · show openCount (t.events ++ [(t.events.length + 1, ev)]) =
          countS (l ++ [Op.opStart s]) - countE (l ++ [Op.opStart s])
        rw [hcnt1, countS_append, countE_append, hopen]
        simp [countS, countE]
        omega
    · have hlt : countE l + 1 ≤ countS l := by
        have hx := hwn (l ++ [Op.opEnd]) [] (by simp)
        rw [countS_append, countE_append] at hx
        simpa [countS, countE] using hx
      have hpos : 0 < openCount t.events := by omega
      obtain ⟨p, e, m1, m2, hm, ho, hp1, hp2, hl2, hmax, hcl, hok⟩ := end_spec t hInv hpos
      obtain ⟨hInv1, hcnt1, hlen1⟩ := Inv_close m1 m2 p e t.clock (hm ▸ hInv) ho hcl
      refine ⟨{ t with
          events := m1 ++ (p, { e with endT := some t.clock }) :: m2,
          clock := t.clock + 1 }, ?_, hInv1, ?_, ?_⟩
      · rw [hrunapp]
        simp [runFrom, stepOp, hok]
      · show (m1 ++ (p, { e with endT := some t.clock }) :: m2).length = countS (l ++ [Op.opEnd])
        rw [hlen1, ← hm, hlen, countS_append]
        simp [countS]
      · show openCount (m1 ++ (p, { e with endT := some t.clock }) :: m2) =
          countS (l ++ [Op.opEnd]) - countE (l ++ [Op.opEnd])
        rw [hcnt1, ← hm, hopen, countS_append, countE_append]
        simp [countS, countE]
        omega

theorem dlookup_append_left (m1 m2 : List (Nat × Event)) (k : Nat) (e : Event)
    (h : dlookup m1 k = some e) : dlookup (m1 ++ m2) k = some e := by
  induction m1 with
  | nil => simp [dlookup] at h
  | cons q rest ih =>
    obtain ⟨k1, v⟩ := q
    rcases eq_or_ne k1 k with rfl | hk
    · rw [dlookup_cons_self] at h
      rw [List.cons_append, dlookup_cons_self]
      exact h
    · rw [dlookup_cons_ne _ _ _ _ hk] at h
      rw [List.cons_append, dlookup_cons_ne _ _ _ _ hk]
      exact ih h

theorem dlookup_middle_ne (m1 m2 : List (Nat × Event)) (p q : Nat) (a b : Event)
    (hq : q ≠ p) :
    dlookup (m1 ++ (p, a) :: m2) q = dlookup (m1 ++ (p, b) :: m2) q := by
  induction m1 with
  | nil =>
    rw [List.nil_append, List.nil_append,
      dlookup_cons_ne _ _ _ _ (fun hc => hq hc.symm),
      dlookup_cons_ne _ _ _ _ (fun hc => hq hc.symm)]
  | cons x rest ih =>
    obtain ⟨k1, v⟩ := x
    rcases eq_or_ne k1 q with rfl | hk
    · rw [List.cons_append, dlookup_cons_self, List.cons_append, dlookup_cons_self]
    · rw [List.cons_append, dlookup_cons_ne _ _ _ _ hk,
        List.cons_append, dlookup_cons_ne _ _ _ _ hk]
      exact ih

theorem foldl_append_str (l : List String) :
    ∀ s : String, l.foldl (· ++ ·) s = s ++ String.join l := by
  induction l with
  | nil => intro s; simp [String.join]
  | cons x rest ih =>
    intro s
    have hx : String.join (x :: rest) = x ++ String.join rest := by
      show (x :: rest).foldl (· ++ ·) "" = x ++ String.join rest
      rw [List.foldl_cons, ih, String.empty_append]
    rw [List.foldl_cons, ih, hx, String.append_assoc]

theorem join_cons (x : String) (l : List String) :
    String.join (x :: l) = x ++ String.join l := by
  show (x :: l).foldl (· ++ ·) "" = x ++ String.join l
  rw [List.foldl_cons, foldl_append_str, String.empty_append]

theorem join_append (l1 l2 : List String) :
    String.join (l1 ++ l2) = String.join l1 ++ String.join l2 := by
  show (l1 ++ l2).foldl (· ++ ·) "" = String.join l1 ++ String.join l2
  rw [List.foldl_append, foldl_append_str]
  rfl

theorem errorsToString_mem (rs : List ErrRecord) (r : ErrRecord) (hr : r ∈ rs) :
    ∃ a b, errorsToString rs =
      a ++ ("\n" ++ r.method ++ " " ++ r.dataId ++ " " ++ r.errDescription) ++ b := by
  obtain ⟨rs1, rs2, rfl⟩ := List.append_of_mem hr
  refine ⟨"Method DataID ErrDescription"
      ++ String.join (rs1.map fun x =>
          "\n" ++ x.method ++ " " ++ x.dataId ++ " " ++ x.errDescription),
    String.join (rs2.map fun x =>
        "\n" ++ x.method ++ " " ++ x.dataId ++ " " ++ x.errDescription), ?_⟩
  rw [errorsToString, List.map_append, join_append, List.map_cons, join_cons]
  simp [String.append_assoc]

theorem wellNested_of_all_take (ops : List Op)
    (h : ∀ n, n ≤ ops.length →
      countE (ops.take n) ≤ countS (ops.take n)) : wellNested ops := by
  intro l1 l2 hl
  have h1 : l1 = ops.take l1.length := by
    rw [hl, List.take_left]
  have h2 : l1.length ≤ ops.length := by
    rw [hl, List.length_append]
    omega
  rw [h1]
  exact h l1.length h2

/-- Example state with one open span, as produced by `start("a")` on a
fresh timer. -/
def timerA : ProgramTimer :=
  ⟨[(1, ⟨"a", 1, 1, none, 0, none⟩)], [], 1⟩

/-- Example state after `start("a"); start("b"); end()`: span 1 still
open, span 2 closed. -/
def timerAB : ProgramTimer :=
  ⟨[(1, ⟨"a", 1, 1, none, 0, none⟩), (2, ⟨"b", 2, 2, some 1, 1, some 2⟩)], [], 3⟩

/-- Example state with no spans and one recorded error. -/
def timerErrOnly : ProgramTimer :=
  ⟨[], [⟨"parse", "row42", "bad id"⟩], 0⟩

/-- C10: after any call sequence on a fresh `ProgramTimer` that completes
without failure, the registry's key list is exactly the contiguous range
`1, …, n` in order (`n` the current registry size), and every key maps
to the event whose `uid` equals that key; moreover no run ever fails
with a `KeyError`, which is what lets the descending scan subscript
`self._events[i]` for `i = n, …, 1`. -/
theorem C10_registry_shape (ops : List Op) :
    runOps ops ≠ .error .keyErr ∧
    ∀ t, runOps ops = .ok t →
      keysOf t.events = List.range' 1 t.events.length ∧
      ∀ q ∈ t.events, q.2.uid = q.1 := by
  obtain ⟨h1, h2⟩ := runOps_inv ops
  exact ⟨h1, fun t ht => ⟨((h2 t ht).1).1, ((h2 t ht).1).2⟩⟩

/-- Witness for C10 at a concrete call sequence containing start, end
and report calls. -/
theorem C10_registry_shape_witness :
    runOps [Op.opStart "a", Op.opStart "b", Op.opEnd, Op.opReport none,
        Op.opStart "c"] ≠ .error .keyErr ∧
    keysOf [(1, (⟨"c", 1, 1, none, 3, none⟩ : Event))] =
      List.range' 1 [(1, (⟨"c", 1, 1, none, 3, none⟩ : Event))].length ∧
    ∀ q ∈ [(1, (⟨"c", 1, 1, none, 3, none⟩ : Event))], q.2.uid = q.1 := by
  have h := C10_registry_shape [Op.opStart "a", Op.opStart "b", Op.opEnd,
    Op.opReport none, Op.opStart "c"]
  have hr : runOps [Op.opStart "a", Op.opStart "b", Op.opEnd, Op.opReport none,
      Op.opStart "c"] = .ok ⟨[(1, ⟨"c", 1, 1, none, 3, none⟩)], [], 4⟩ := rfl
  exact ⟨h.1, (h.2 _ hr).1, (h.2 _ hr).2⟩

/-- C3 counterexample: on a fresh timer, `start("a")` returns `None`
(the Python method body has no `return` statement), not the new id `1`
that the claim says is returned to the caller. -/
theorem C3_counterexample :
    (ProgramTimer.start initTimer "a").map Prod.snd = .ok none ∧
    (Except.ok none : Except TimerErr (Option Nat)) ≠ .ok (some 1) := by
  refine ⟨rfl, ?_⟩
  intro hc
  exact Option.noConfusion (Except.ok.inj hc)

/-- C3 amended: in every reachable registry state, `start(name)` assigns
the new span the id `registry_size + 1` and inserts it into the
registry under that id, but returns `None` to the caller (no id is
returned). -/
theorem C3_start_amended (t : ProgramTimer) (name : String) (h : Inv t.events) :
    ∃ ev : Event,
      t.start name = .ok ({ t with
          events := t.events ++ [(t.events.length + 1, ev)],
          clock := t.clock + 1 }, none) ∧
      ev.uid = t.events.length + 1 ∧ ev.name = name ∧
      dlookup (t.events ++ [(t.events.length + 1, ev)]) (t.events.length + 1) =
        some ev := by
  obtain ⟨ev, hok, hn, hu, hh, hs, he⟩ := start_spec t name h
  have hnotin : t.events.length + 1 ∉ keysOf t.events := by
    rw [h.1.1]; intro hx; rw [List.mem_range'_1] at hx; omega
  exact ⟨ev, hok, hu, hn, dlookup_snoc _ _ _ hnotin⟩

/-- Witness for the amended C3 on a fresh timer. -/
theorem C3_start_amended_witness :
    ∃ ev : Event,
      initTimer.start "a" = .ok ({ initTimer with
          events := initTimer.events ++ [(initTimer.events.length + 1, ev)],
          clock := initTimer.clock + 1 }, none) ∧
      ev.uid = initTimer.events.length + 1 ∧ ev.name = "a" ∧
      dlookup (initTimer.events ++ [(initTimer.events.length + 1, ev)])
        (initTimer.events.length + 1) = some ev :=
  C3_start_amended initTimer "a" (by decide)

/-- C9: `log_err` is total and appends exactly one record with the given
field values at the end of the error log, and no successful registry
operation ever mutates or removes a previously appended record: the old
log is always a left part of the new one. -/
theorem C9_error_log (t : ProgramTimer) (m d i : String) (op : Op)
    (t1 : ProgramTimer) (h : Inv t.events) (hstep : stepOp t op = .ok t1) :
    (t.log_err m d i).errors = t.errors ++ [⟨m, d, i⟩] ∧
    (t.log_err m d i).events = t.events ∧
    ∃ rest, t1.errors = t.errors ++ rest := by
  refine ⟨rfl, rfl, ?_⟩
  cases op with
  | opStart name =>
    obtain ⟨ev, hok, -, -, -, -, -⟩ := start_spec t name h
    have hs1 : stepOp t (Op.opStart name) = .ok { t with
        events := t.events ++ [(t.events.length + 1, ev)], clock := t.clock + 1 } := by
      simp [stepOp, hok]
    rw [hs1] at hstep
    obtain rfl := Except.ok.inj hstep
    exact ⟨[], by simp⟩
  | opEnd =>
    rcases Nat.eq_zero_or_pos (openCount t.events) with hz | hpos
    · rw [show stepOp t Op.opEnd = t.endCall from rfl, end_err t h hz] at hstep
      exact Except.noConfusion hstep
    · obtain ⟨p, e, m1, m2, hm, ho, hp1, hp2, hl, hmax, hcl, hok⟩ := end_spec t h hpos
      rw [show stepOp t Op.opEnd = t.endCall from rfl, hok] at hstep
      obtain rfl := Except.ok.inj hstep
      exact ⟨[], by simp⟩
  | opReport hd =>
    have hps := print_summary_spec t hd h.1.1
    have hs1 : stepOp t (Op.opReport hd) = .ok { t with events := [] } := by
      simp [stepOp, hps]
    rw [hs1] at hstep
    obtain rfl := Except.ok.inj hstep
    exact ⟨[], by simp⟩
  | opRecord a b c =>
    obtain rfl := Except.ok.inj hstep
    exact ⟨[⟨a, b, c⟩], rfl⟩

/-- Witness for C9: recording on the one-open-span example state. -/
theorem C9_error_log_witness :
    (timerA.log_err "m" "d" "i").errors = timerA.errors ++ [⟨"m", "d", "i"⟩] ∧
    (timerA.log_err "m" "d" "i").events = timerA.events ∧
    ∃ rest, (timerA.log_err "x" "y" "z").errors = timerA.errors ++ rest :=
  C9_error_log timerA "m" "d" "i" (Op.opRecord "x" "y" "z")
    (timerA.log_err "x" "y" "z") (by decide) rfl

/-- C8: end-once semantics — a single registry operation applied to a
reachable state never changes the end instant of an already-closed span
that is still in the registry afterwards. -/
theorem C8_end_once (t : ProgramTimer) (op : Op) (t1 : ProgramTimer)
    (h : Inv t.events) (hstep : stepOp t op = .ok t1)
    (u : Nat) (e : Event) (x : Nat)
    (he : dlookup t.events u = some e) (hx : e.endT = some x)
    (e1 : Event) (he1 : dlookup t1.events u = some e1) :
    e1.endT = some x := by
  cases op with
  | opStart name =>
    obtain ⟨ev, hok, -, -, -, -, -⟩ := start_spec t name h
    have hs1 : stepOp t (Op.opStart name) = .ok { t with
        events := t.events ++ [(t.events.length + 1, ev)], clock := t.clock + 1 } := by
      simp [stepOp, hok]
    rw [hs1] at hstep
    obtain rfl := Except.ok.inj hstep
    have h2 : dlookup (t.events ++ [(t.events.length + 1, ev)]) u = some e :=
      dlookup_append_left _ _ _ _ he
    have he1a : dlookup (t.events ++ [(t.events.length + 1, ev)]) u = some e1 := he1
    obtain rfl := Option.some.inj (h2.symm.trans he1a)
    exact hx
  | opEnd =>
    rcases Nat.eq_zero_or_pos (openCount t.events) with hz | hpos
    · rw [show stepOp t Op.opEnd = t.endCall from rfl, end_err t h hz] at hstep
      exact Except.noConfusion hstep
    · obtain ⟨p, ep, m1, m2, hm, ho, hp1, hp2, hl, hmax, hcl, hok⟩ := end_spec t h hpos
      rw [show stepOp t Op.opEnd = t.endCall from rfl, hok] at hstep
      obtain rfl := Except.ok.inj hstep
      rcases eq_or_ne u p with rfl | hup
      · rw [hl] at he
        obtain rfl := Option.some.inj he
        rw [Event.is_open, hx] at ho
        simp at ho
      · have hsame : dlookup (m1 ++ (p, { ep with endT := some t.clock }) :: m2) u
            = dlookup (m1 ++ (p, ep) :: m2) u :=
          dlookup_middle_ne _ _ _ _ _ _ hup
        have he1a : dlookup (m1 ++ (p, { ep with endT := some t.clock }) :: m2) u
            = some e1 := he1
        rw [hsame, ← hm, he] at he1a
        obtain rfl := Option.some.inj he1a
        exact hx
  | opReport hd =>
    have hps := print_summary_spec t hd h.1.1
    have hs1 : stepOp t (Op.opReport hd) = .ok { t with events := [] } := by
      simp [stepOp, hps]
    rw [hs1] at hstep
    obtain rfl := Except.ok.inj hstep
    exact Option.noConfusion he1
  | opRecord a b c =>
    obtain rfl := Except.ok.inj hstep
    obtain rfl := Option.some.inj (he.symm.trans he1)
    exact hx

/-- Witness for C8: ending the open span of the two-span example state
leaves the closed span's end instant unchanged. -/
theorem C8_end_once_witness :
    (⟨"b", 2, 2, some 1, 1, some 2⟩ : Event).endT = some 2 :=
  C8_end_once timerAB Op.opEnd
    ⟨[(1, ⟨"a", 1, 1, none, 0, some 3⟩), (2, ⟨"b", 2, 2, some 1, 1, some 2⟩)], [], 4⟩
    (by decide) rfl 2 ⟨"b", 2, 2, some 1, 1, some 2⟩ 2 rfl rfl
    ⟨"b", 2, 2, some 1, 1, some 2⟩ rfl

/-- C2: in every reachable registry state, `end()` fails with the
ordering-violation error iff no open span exists (empty registry or all
spans closed); when at least one span is open, `end()` succeeds, closes
the open span with the largest id, and touches nothing else. -/
theorem C2_end_ordering (t : ProgramTimer) (h : Inv t.events) :
    (t.endCall = .error .orderingViolation ↔ openCount t.events = 0) ∧
    (0 < openCount t.events →
      ∃ t1 p e, t.endCall = .ok t1 ∧
        openAt t.events p = true ∧
        (∀ q, openAt t.events q = true → q ≤ p) ∧
        dlookup t.events p = some e ∧
        dlookup t1.events p = some { e with endT := some t.clock } ∧
        (∀ q, q ≠ p → dlookup t1.events q = dlookup t.events q) ∧
        t1.errors = t.errors) := by
  refine ⟨end_err_iff t h, ?_⟩
  intro hpos
  obtain ⟨p, e, m1, m2, hm, ho, hp1, hp2, hl, hmax, hcl, hok⟩ := end_spec t h hpos
  refine ⟨{ t with
      events := m1 ++ (p, { e with endT := some t.clock }) :: m2,
      clock := t.clock + 1 }, p, e, hok, ?_, ?_, hl, ?_, ?_, rfl⟩
  · simp [openAt, hl, ho]
  · intro q hq
    by_contra hgt
    push_neg at hgt
    rw [hmax q hgt] at hq
    exact Bool.noConfusion hq
  · have hInv1 := (Inv_close m1 m2 p e t.clock (hm ▸ h) ho hcl).1
    exact mem_dlookup (keysOf_nodup _ hInv1.1.1)
      (List.mem_append_right _ (List.mem_cons_self _ _))
  · intro q hq
    have hmid : dlookup (m1 ++ (p, { e with endT := some t.clock }) :: m2) q
        = dlookup (m1 ++ (p, e) :: m2) q := dlookup_middle_ne _ _ _ _ _ _ hq
    rw [← hm] at hmid
    exact hmid

/-- Witness for C2 on the two-span example state (span 1 open). -/
theorem C2_end_ordering_witness :
    (timerAB.endCall = .error .orderingViolation ↔ openCount timerAB.events = 0) ∧
    (0 < openCount timerAB.events →
      ∃ t1 p e, timerAB.endCall = .ok t1 ∧
        openAt timerAB.events p = true ∧
        (∀ q, openAt timerAB.events q = true → q ≤ p) ∧
        dlookup timerAB.events p = some e ∧
        dlookup t1.events p = some { e with endT := some timerAB.clock } ∧
        (∀ q, q ≠ p → dlookup t1.events q = dlookup timerAB.events q) ∧
        t1.errors = timerAB.errors) :=
  C2_end_ordering timerAB (by decide)

/-- C5: duplicate `end()` — when the most recently created span is
already closed but some earlier span is still open, `end()` does not
fail: the scan skips the closed spans and closes the open span with the
largest id, an earlier, unrelated span. -/
theorem C5_duplicate_end (t : ProgramTimer) (h : Inv t.events)
    (elast : Event) (hlast : dlookup t.events t.events.length = some elast)
    (hclosed : elast.is_open = false)
    (j : Nat) (ej : Event) (hj : dlookup t.events j = some ej)
    (hopenj : ej.is_open = true) :
    ∃ t1 p e, t.endCall = .ok t1 ∧ p < t.events.length ∧
      openAt t.events p = true ∧
      (∀ q, openAt t.events q = true → q ≤ p) ∧
      dlookup t.events p = some e ∧
      dlookup t1.events p = some { e with endT := some t.clock } := by
  have hpos : 0 < openCount t.events := openCount_pos_of_open t.events j ej hj hopenj
  obtain ⟨p, e, m1, m2, hm, ho, hp1, hp2, hl, hmax, hcl, hok⟩ := end_spec t h hpos
  have hpn : p ≠ t.events.length := by
    intro hpe
    rw [hpe, hlast] at hl
    obtain rfl := Option.some.inj hl
    exact Bool.noConfusion (ho.symm.trans hclosed)
  refine ⟨{ t with
      events := m1 ++ (p, { e with endT := some t.clock }) :: m2,
      clock := t.clock + 1 }, p, e, hok, by omega, ?_, ?_, hl, ?_⟩
  · simp [openAt, hl, ho]
  · intro q hq
    by_contra hgt
    push_neg at hgt
    rw [hmax q hgt] at hq
    exact Bool.noConfusion hq
  · have hInv1 := (Inv_close m1 m2 p e t.clock (hm ▸ h) ho hcl).1
    exact mem_dlookup (keysOf_nodup _ hInv1.1.1)
      (List.mem_append_right _ (List.mem_cons_self _ _))

/-- Witness for C5: duplicate `end()` on the two-span example state
silently closes span 1, not span 2. -/
theorem C5_duplicate_end_witness :
    ∃ t1 p e, timerAB.endCall = .ok t1 ∧ p < timerAB.events.length ∧
      openAt timerAB.events p = true ∧
      (∀ q, openAt timerAB.events q = true → q ≤ p) ∧
      dlookup timerAB.events p = some e ∧
      dlookup t1.events p = some { e with endT := some timerAB.clock } :=
  C5_duplicate_end timerAB (by decide) ⟨"b", 2, 2, some 1, 1, some 2⟩ rfl rfl
    1 ⟨"a", 1, 1, none, 0, none⟩ rfl rfl

theorem print_summary_no_err (t : ProgramTimer) (header : Option String)
    (hk : keysOf t.events = List.range' 1 t.events.length) (hemp : t.errors = []) :
    t.print_summary header = .ok
      ("\n" ++ sectionDivide ++ "\n" ++ header.getD "Program Execution Summary" ++ "\n\n"
        ++ String.join (t.events.map fun q => create_event_summary t.clock q.2 ++ "\n")
        ++ "\n" ++ sectionDivide ++ "\n", { t with events := [] }) := by
  have hps := print_summary_spec t header hk
  have hflag : t.errors_were_logged = false := by
    simp [ProgramTimer.errors_were_logged, hemp]
  rw [hps]
  simp [hflag]

theorem print_summary_err_section (t : ProgramTimer) (header : Option String)
    (hk : keysOf t.events = List.range' 1 t.events.length) (hne : t.errors ≠ []) :
    t.print_summary header = .ok
      ("\n" ++ sectionDivide ++ "\n" ++ header.getD "Program Execution Summary" ++ "\n\n"
        ++ String.join (t.events.map fun q => create_event_summary t.clock q.2 ++ "\n")
        ++ sectionDivide ++ "\n" ++ "Exceptions\n\n" ++ errorsToString t.errors
        ++ "\n" ++ sectionDivide ++ "\n", { t with events := [] }) := by
  have hps := print_summary_spec t header hk
  have hflag : t.errors_were_logged = true := by
    simp [ProgramTimer.errors_were_logged, List.isEmpty_iff, hne]
  rw [hps]
  simp [hflag]

/-- C4: after `print_summary` the registry is empty — the next `start`
assigns id 1 — while the error log is exactly the sequence it was
before the call, and pre-existing error records still render in a
subsequent report. -/
theorem C4_report_frame (t : ProgramTimer) (header : Option String)
    (h : Inv t.events) :
    ∃ s t1, t.print_summary header = .ok (s, t1) ∧
      t1.events = [] ∧ t1.errors = t.errors ∧
      (∀ name, ∃ ev, t1.start name = .ok ({ t1 with
          events := [(1, ev)], clock := t1.clock + 1 }, none) ∧ ev.uid = 1) ∧
      (t.errors ≠ [] → ∀ h2, ∃ s2 t2 a, t1.print_summary h2 = .ok (s2, t2) ∧
        s2 = a ++ errorsToString t.errors ++ ("\n" ++ sectionDivide ++ "\n")) := by
  have hps := print_summary_spec t header h.1.1
  refine ⟨_, { t with events := [] }, hps, rfl, rfl, ?_, ?_⟩
  · intro name
    have hInvEmpty : Inv ({ t with events := [] } : ProgramTimer).events := Inv_nil
    obtain ⟨ev, hok, hn, hu, -, -, -⟩ :=
      start_spec { t with events := [] } name hInvEmpty
    exact ⟨ev, hok, hu⟩
  · intro hne h2
    have hsec := print_summary_err_section { t with events := [] } h2 rfl hne
    refine ⟨_, { ({ t with events := [] } : ProgramTimer) with events := [] },
      "\n" ++ sectionDivide ++ "\n" ++ h2.getD "Program Execution Summary" ++ "\n\n"
        ++ String.join ((([] : List (Nat × Event))).map fun q =>
            create_event_summary t.clock q.2 ++ "\n")
        ++ sectionDivide ++ "\n" ++ "Exceptions\n\n", hsec, ?_⟩
    simp [String.append_assoc]

/-- Witness for C4 on the two-span example state extended with one
recorded error. -/
theorem C4_report_frame_witness :
    ∃ s t1, (timerAB.log_err "parse" "row42" "bad id").print_summary (some "Run")
        = .ok (s, t1) ∧
      t1.events = [] ∧ t1.errors = (timerAB.log_err "parse" "row42" "bad id").errors ∧
      (∀ name, ∃ ev, t1.start name = .ok ({ t1 with
          events := [(1, ev)], clock := t1.clock + 1 }, none) ∧ ev.uid = 1) ∧
      ((timerAB.log_err "parse" "row42" "bad id").errors ≠ [] →
        ∀ h2, ∃ s2 t2 a, t1.print_summary h2 = .ok (s2, t2) ∧
          s2 = a ++ errorsToString (timerAB.log_err "parse" "row42" "bad id").errors
            ++ ("\n" ++ sectionDivide ++ "\n")) :=
  C4_report_frame (timerAB.log_err "parse" "row42" "bad id") (some "Run") (by decide)

/-- C6: the report renders the spans in ascending id (creation) order —
the registry list is ordered by id — one line per span, each line being
three spaces repeated `hrchy - 1` times, the span's name, `": "`, the
elapsed seconds with one decimal, and `"s"`; depth-1 spans get zero
indentation. -/
theorem C6_render_spans (t : ProgramTimer) (header : Option String)
    (h : Inv t.events) :
    keysOf t.events = List.range' 1 t.events.length ∧
    ∃ s t1 tail, t.print_summary header = .ok (s, t1) ∧
      s = "\n" ++ sectionDivide ++ "\n" ++ header.getD "Program Execution Summary" ++ "\n\n"
        ++ String.join (t.events.map fun q =>
            String.join (List.replicate (q.2.hrchy - 1) "   ") ++ q.2.name ++ ": "
              ++ fmt1 (q.2.seconds t.clock) ++ "s" ++ "\n")
        ++ tail := by
  refine ⟨h.1.1, ?_⟩
  rcases eq_or_ne t.errors [] with hemp | hne
  · refine ⟨_, _, "\n" ++ sectionDivide ++ "\n",
      print_summary_no_err t header h.1.1 hemp, ?_⟩
    simp [create_event_summary, String.append_assoc]
  · refine ⟨_, _, sectionDivide ++ "\n" ++ "Exceptions\n\n" ++ errorsToString t.errors
        ++ "\n" ++ sectionDivide ++ "\n",
      print_summary_err_section t header h.1.1 hne, ?_⟩
    simp [create_event_summary, String.append_assoc]

/-- Witness for C6 on the two-span example state. -/
theorem C6_render_spans_witness :
    keysOf timerAB.events = List.range' 1 timerAB.events.length ∧
    ∃ s t1 tail, timerAB.print_summary (some "Run") = .ok (s, t1) ∧
      s = "\n" ++ sectionDivide ++ "\n" ++ (some "Run").getD "Program Execution Summary"
        ++ "\n\n"
        ++ String.join (timerAB.events.map fun q =>
            String.join (List.replicate (q.2.hrchy - 1) "   ") ++ q.2.name ++ ": "
              ++ fmt1 (q.2.seconds timerAB.clock) ++ "s" ++ "\n")
        ++ tail :=
  C6_render_spans timerAB (some "Run") (by decide)

/-- C7: the rendered report carries the `Exceptions` section exactly
when the error log is non-empty, and that section renders every
recorded error as a row with the three recorded field values; with no
spans the spans section is empty but the header and error rows are
still present. -/
theorem C7_exc_section (t : ProgramTimer) (header : Option String)
    (h : Inv t.events) :
    (t.errors = [] →
      t.print_summary header = .ok
        ("\n" ++ sectionDivide ++ "\n" ++ header.getD "Program Execution Summary" ++ "\n\n"
          ++ String.join (t.events.map fun q => create_event_summary t.clock q.2 ++ "\n")
          ++ "\n" ++ sectionDivide ++ "\n", { t with events := [] })) ∧
    (t.errors ≠ [] →
      t.print_summary header = .ok
        ("\n" ++ sectionDivide ++ "\n" ++ header.getD "Program Execution Summary" ++ "\n\n"
          ++ String.join (t.events.map fun q => create_event_summary t.clock q.2 ++ "\n")
          ++ sectionDivide ++ "\n" ++ "Exceptions\n\n" ++ errorsToString t.errors
          ++ "\n" ++ sectionDivide ++ "\n", { t with events := [] }) ∧
      ∀ r ∈ t.errors, ∃ a b,
        errorsToString t.errors =
          a ++ ("\n" ++ r.method ++ " " ++ r.dataId ++ " " ++ r.errDescription) ++ b) := by
  constructor
  · intro hemp
    exact print_summary_no_err t header h.1.1 hemp
  · intro hne
    exact ⟨print_summary_err_section t header h.1.1 hne,
      fun r hr => errorsToString_mem t.errors r hr⟩

/-- Witness for C7: a report with no spans and one recorded error. -/
theorem C7_exc_section_witness :
    timerErrOnly.print_summary (some "Run") = .ok
      ("\n" ++ sectionDivide ++ "\n" ++ (some "Run").getD "Program Execution Summary"
        ++ "\n\n"
        ++ String.join (timerErrOnly.events.map fun q =>
            create_event_summary timerErrOnly.clock q.2 ++ "\n")
        ++ sectionDivide ++ "\n" ++ "Exceptions\n\n" ++ errorsToString timerErrOnly.errors
        ++ "\n" ++ sectionDivide ++ "\n", { timerErrOnly with events := [] }) ∧
    ∀ r ∈ timerErrOnly.errors, ∃ a b,
      errorsToString timerErrOnly.errors =
        a ++ ("\n" ++ r.method ++ " " ++ r.dataId ++ " " ++ r.errDescription) ++ b :=
  (C7_exc_section timerErrOnly (some "Run") (by decide)).2 (by decide)

/-- C1: for every well-nested `start`/`end` call sequence on a fresh
`ProgramTimer`, the `hrchy` (depth) assigned by the next `start` equals
its true nesting depth: 1 plus the number of spans started before it
and still unmatched at that moment (`countS - countE`, since under
well-nesting every `end` closes exactly one open span). -/
theorem C1_depth (pref : List Op) (name : String)
    (hse : startEndOnly pref) (hwn : wellNested (pref ++ [Op.opStart name])) :
    ∃ t t1 ev,
      runOps pref = .ok t ∧
      runOps (pref ++ [Op.opStart name]) = .ok t1 ∧
      dlookup t1.events (countS pref + 1) = some ev ∧
      ev.name = name ∧
      ev.hrchy = 1 + (countS pref - countE pref) := by
  have hwn1 : wellNested pref := by
    intro l1 l2 hl
    exact hwn l1 (l2 ++ [Op.opStart name]) (by rw [hl, List.append_assoc])
  obtain ⟨t, hrun, hInv, hlen, hopen⟩ := trace_state pref hse hwn1
  obtain ⟨ev, hok, hn, hu, hh, hs, he⟩ := start_spec t name hInv
  have hrunapp : runOps (pref ++ [Op.opStart name]) = runFrom t [Op.opStart name] := by
    simp only [runOps, runFrom_append]
    rw [show runFrom initTimer pref = runOps pref from rfl, hrun]
  refine ⟨t, { t with
      events := t.events ++ [(t.events.length + 1, ev)],
      clock := t.clock + 1 }, ev, hrun, ?_, ?_, hn, ?_⟩
  · rw [hrunapp]
    simp [runFrom, stepOp, hok]
  · have hnotin : t.events.length + 1 ∉ keysOf t.events := by
      rw [hInv.1.1]; intro hx; rw [List.mem_range'_1] at hx; omega
    have hdl := dlookup_snoc t.events (t.events.length + 1) ev hnotin
    rw [← hlen]
    exact hdl
  · rw [hh, hopen]
    omega

/-- Witness for C1: after `start a; start b; end`, the next `start c`
gets depth `2 = 1 + (2 - 1)`. -/
theorem C1_depth_witness :
    ∃ t t1 ev,
      runOps [Op.opStart "a", Op.opStart "b", Op.opEnd] = .ok t ∧
      runOps ([Op.opStart "a", Op.opStart "b", Op.opEnd] ++ [Op.opStart "c"]) = .ok t1 ∧
      dlookup t1.events (countS [Op.opStart "a", Op.opStart "b", Op.opEnd] + 1) =
        some ev ∧
      ev.name = "c" ∧
      ev.hrchy = 1 + (countS [Op.opStart "a", Op.opStart "b", Op.opEnd]
        - countE [Op.opStart "a", Op.opStart "b", Op.opEnd]) := by
  refine C1_depth [Op.opStart "a", Op.opStart "b", Op.opEnd] "c" ?_ ?_
  · intro op hop
    fin_cases hop
    · exact Or.inl ⟨"a", rfl⟩
    · exact Or.inl ⟨"b", rfl⟩
    · exact Or.inr rfl
  · refine wellNested_of_all_take _ ?_
    intro n hn
    simp only [List.length_append, List.length_cons, List.length_nil] at hn
    interval_cases n <;> decide

end RestaurantTimer
